import Mathlib

/-!
Shallow embedding of the per-note edit-locking backend (Fastify + MySQL):
the lock module (`locks.ts`: `acquireOrRenewLock`, `releaseLock`,
`ensureValidLock`) and the HTTP handlers in `app.ts` (lock acquire,
lock release, gated note update, listing with expired-lock cleanup).

Modelling choices:
- DB datetimes become `Nat` instants; every `UTC_TIMESTAMP()` evaluation
  inside one call shares a single server clock value `now`.
- The `note_locks` table (PRIMARY KEY note_id) becomes an association
  list `List (Nat × LockRow)`; the `notes` table a `List (Nat × Note)`.
- The `ON DUPLICATE KEY UPDATE ... CASE` upsert becomes `upsertRow`
  applied to the existing row, written back with `lockUpsert`.
- Transactions: a rolled-back branch returns the pre-call state.
-/

namespace NotesLock

/-- One row of the `note_locks` table (minus the key column). -/
structure LockRow where
  lockedBy : String
  lockedAt : Nat
  expiresAt : Nat
deriving Repr, DecidableEq

/-- One row of the `notes` table (minus the key column). -/
structure Note where
  title : String
  content : String
  updatedAt : Nat
deriving Repr, DecidableEq

abbrev LockStore := List (Nat × LockRow)

abbrev NoteStore := List (Nat × Note)

/-- `SELECT ... FROM note_locks WHERE note_id = ?` (first match). -/
def lockLookup : LockStore → Nat → Option LockRow
  | [], _ => none
  | (k, v) :: rest, n => if k = n then some v else lockLookup rest n

/-- Write-back of the upsert: replace the row keyed `k` if present, else insert. -/
def lockUpsert : LockStore → Nat → LockRow → LockStore
  | [], k, v => [(k, v)]
  | (k', v') :: rest, k, v =>
      if k' = k then (k, v) :: rest else (k', v') :: lockUpsert rest k v

/-- `DELETE FROM note_locks WHERE note_id = ?`. -/
def lockDelete (locks : LockStore) (noteId : Nat) : LockStore :=
  locks.filter (fun p => decide (¬ p.1 = noteId))

/-- `DELETE FROM note_locks WHERE note_id = ? AND locked_by = ?`. -/
def lockDeleteBy (locks : LockStore) (noteId : Nat) (sessionId : String) : LockStore :=
  locks.filter (fun p => decide (¬ (p.1 = noteId ∧ p.2.lockedBy = sessionId)))

/-- `SELECT ... FROM notes WHERE id = ?` (first match). -/
def noteLookup : NoteStore → Nat → Option Note
  | [], _ => none
  | (k, v) :: rest, n => if k = n then some v else noteLookup rest n

/-- The row produced by the atomic upsert in `acquireOrRenewLock`
(`INSERT ... ON DUPLICATE KEY UPDATE` with its three `CASE` branches):
insert fresh if missing; take over if expired; renew if same owner;
otherwise keep the current owner's row untouched. -/
def upsertRow (existing : Option LockRow) (sessionId : String) (now ttl : Nat) : LockRow :=
  match existing with
  | none => ⟨sessionId, now, now + ttl⟩
  | some row =>
      if row.expiresAt ≤ now then ⟨sessionId, now, now + ttl⟩
      else if row.lockedBy = sessionId then ⟨sessionId, now, now + ttl⟩
      else row

/-- The public lock payload (`LockInfo` in `locks.ts`). -/
structure LockInfo where
  noteId : Nat
  lockedBy : String
  lockedAt : Nat
  expiresAt : Nat
deriving Repr, DecidableEq

/-- Result of `acquireOrRenewLock`: `{ok: true, lock}` or `{ok: false, lock}`. -/
inductive AcquireResult where
  | granted (lock : LockInfo)
  | denied (lockedBy : String) (expiresAt : Nat)
deriving Repr, DecidableEq

/-- `acquireOrRenewLock(connection, noteId, sessionId)`: run the atomic
upsert, re-read the row, and decide by comparing the post-write holder to
the caller. The `none` branch mirrors the defensive `if (!row)` return. -/
def acquireOrRenewLock (locks : LockStore) (noteId : Nat) (sessionId : String)
    (now ttl : Nat) : LockStore × AcquireResult :=
  let locks' := lockUpsert locks noteId (upsertRow (lockLookup locks noteId) sessionId now ttl)
  match lockLookup locks' noteId with
  | none => (locks', .denied "unknown" 0)
  | some row =>
      if row.lockedBy = sessionId then
        (locks', .granted ⟨noteId, row.lockedBy, row.lockedAt, row.expiresAt⟩)
      else
        (locks', .denied row.lockedBy row.expiresAt)

/-- Result of `releaseLock`: "released" | "forbidden" | "noop". -/
inductive ReleaseResult where
  | released
  | forbidden
  | noop
deriving Repr, DecidableEq

/-- `releaseLock(connection, noteId, sessionId)`. -/
def releaseLock (locks : LockStore) (noteId : Nat) (sessionId : String)
    (now : Nat) : LockStore × ReleaseResult :=
  match lockLookup locks noteId with
  | none => (locks, .noop)
  | some row =>
      if row.expiresAt ≤ now then (lockDelete locks noteId, .noop)
      else if ¬ row.lockedBy = sessionId then (locks, .forbidden)
      else (lockDeleteBy locks noteId sessionId, .released)

/-- Result of `ensureValidLock`: `{ok: true}` or `{ok: false, lockedBy?, expiresAt?}`. -/
inductive ValidateResult where
  | valid
  | invalid (lockedBy : Option String) (expiresAt : Option Nat)
deriving Repr, DecidableEq

/-- `ensureValidLock(connection, noteId, sessionId)`. -/
def ensureValidLock (locks : LockStore) (noteId : Nat) (sessionId : String)
    (now : Nat) : LockStore × ValidateResult :=
  match lockLookup locks noteId with
  | none => (locks, .invalid none none)
  | some row =>
      if row.expiresAt ≤ now then (lockDelete locks noteId, .invalid none none)
      else if ¬ row.lockedBy = sessionId then
        (locks, .invalid (some row.lockedBy) (some row.expiresAt))
      else (locks, .valid)

/-- Whole backend state: the `notes` and `note_locks` tables. -/
structure AppState where
  notes : NoteStore
  locks : LockStore
deriving Repr, DecidableEq

/-- Outcome of `POST /notes/:id/lock`: 200 with lock, 423 with holder info, or 404. -/
inductive LockEndpointResult where
  | ok (lock : LockInfo)
  | lockedByOther (lockedBy : String) (expiresAt : Nat)
  | notFound
deriving Repr, DecidableEq

/-- `POST /notes/:id/lock` handler: check the note exists, then delegate to
`acquireOrRenewLock`. -/
def postLockHandler (st : AppState) (noteId : Nat) (sessionId : String)
    (now ttl : Nat) : AppState × LockEndpointResult :=
  match noteLookup st.notes noteId with
  | none => (st, .notFound)
  | some _ =>
      match acquireOrRenewLock st.locks noteId sessionId now ttl with
      | (locks', .granted info) => ({ st with locks := locks' }, .ok info)
      | (locks', .denied lb ea) => ({ st with locks := locks' }, .lockedByOther lb ea)

/-- Outcome of `DELETE /notes/:id/lock`: 204 (released/noop) or 403. -/
inductive ReleaseEndpointResult where
  | noContent
  | forbidden
deriving Repr, DecidableEq

/-- `DELETE /notes/:id/lock` handler. -/
def deleteLockHandler (st : AppState) (noteId : Nat) (sessionId : String)
    (now : Nat) : AppState × ReleaseEndpointResult :=
  match releaseLock st.locks noteId sessionId now with
  | (locks', .forbidden) => ({ st with locks := locks' }, .forbidden)
  | (locks', _) => ({ st with locks := locks' }, .noContent)

/-- Outcome of `PUT /notes/:id`: 200, 423 with lock details, 404, or 400. -/
inductive UpdateResult where
  | updated
  | lockInvalid (lockedBy : Option String) (expiresAt : Option Nat)
  | notFound
  | badRequest
deriving Repr, DecidableEq

/-- Effect of the `SET` clause on one row: `title = COALESCE(?, title)`,
`content = COALESCE(?, content)`, `updated_at = UTC_TIMESTAMP()`, applied
only to the row matching the `WHERE id = ?` key. -/
def patchNote (noteId : Nat) (title? content? : Option String) (now : Nat)
    (p : Nat × Note) : Nat × Note :=
  if p.1 = noteId then (p.1, ⟨title?.getD p.2.title, content?.getD p.2.content, now⟩)
  else p

/-- `UPDATE notes SET title = COALESCE(?, title), content = COALESCE(?, content),
updated_at = UTC_TIMESTAMP() WHERE id = ?`; `none` when no row matched
(`affectedRows === 0`). -/
def notesUpdate (notes : NoteStore) (noteId : Nat) (title? content? : Option String)
    (now : Nat) : Option NoteStore :=
  if notes.any (fun p => p.1 == noteId) then
    some (notes.map (patchNote noteId title? content? now))
  else none

/-- `PUT /notes/:id` handler: reject an empty patch; inside one transaction
run `ensureValidLock`, then the note `UPDATE`; roll back (state untouched)
on lock-invalid and not-found, commit on success. -/
def putNoteHandler (st : AppState) (noteId : Nat) (sessionId : String)
    (title? content? : Option String) (now : Nat) : AppState × UpdateResult :=
  if title?.isNone && content?.isNone then (st, .badRequest)
  else
    match ensureValidLock st.locks noteId sessionId now with
    | (_, .invalid lb ea) => (st, .lockInvalid lb ea)
    | (locks₁, .valid) =>
        match notesUpdate st.notes noteId title? content? now with
        | none => (st, .notFound)
        | some notes' => (⟨notes', locks₁⟩, .updated)

/-- One row of the `GET /notes` response. -/
structure NoteView where
  id : Nat
  title : String
  content : String
  updatedAt : Nat
  isLocked : Bool
  lockedBy : Option String
  expiresAt : Option Nat
deriving Repr, DecidableEq

/-- Projection of one note through the `LEFT JOIN note_locks` with
`isLocked = (expires_at > UTC_TIMESTAMP())`, then the response mapping
(`isLocked === 1 ? {true, lockedBy, expiresAt} : {false, null, null}`). -/
def noteView (locks : LockStore) (now : Nat) (p : Nat × Note) : NoteView :=
  match lockLookup locks p.1 with
  | some row =>
      if now < row.expiresAt then
        ⟨p.1, p.2.title, p.2.content, p.2.updatedAt, true, some row.lockedBy, some row.expiresAt⟩
      else ⟨p.1, p.2.title, p.2.content, p.2.updatedAt, false, none, none⟩
  | none => ⟨p.1, p.2.title, p.2.content, p.2.updatedAt, false, none, none⟩

/-- `GET /notes` handler: `DELETE FROM note_locks WHERE expires_at <= UTC_TIMESTAMP()`,
then project every note through the lock join. -/
def getNotesHandler (st : AppState) (now : Nat) : AppState × List NoteView :=
  let locks' := st.locks.filter (fun p => decide (now < p.2.expiresAt))
  ({ st with locks := locks' }, st.notes.map (noteView locks' now))

/-- One externally invocable operation against the backend state. -/
inductive Op where
  | acquire (noteId : Nat) (sessionId : String) (now ttl : Nat)
  | release (noteId : Nat) (sessionId : String) (now : Nat)
  | update (noteId : Nat) (sessionId : String) (title? content? : Option String) (now : Nat)
  | validate (noteId : Nat) (sessionId : String) (now : Nat)
  | listing (now : Nat)

/-- State effect of one operation. -/
def applyOp (st : AppState) : Op → AppState
  | .acquire n s now ttl => (postLockHandler st n s now ttl).1
  | .release n s now => (deleteLockHandler st n s now).1
  | .update n s t c now => (putNoteHandler st n s t c now).1
  | .validate n s now => { st with locks := (ensureValidLock st.locks n s now).1 }
  | .listing now => (getNotesHandler st now).1

/-- Run a sequence of operations. -/
def runOps (st : AppState) (ops : List Op) : AppState :=
  ops.foldl applyOp st

/-- Keys of the lock table. -/
def lockKeys (locks : LockStore) : List Nat :=
  locks.map Prod.fst

/-- Store invariant: at most one lock row per note id (key list nodup),
and every lock row's key names an existing note. -/
def StoreInv (st : AppState) : Prop :=
  (lockKeys st.locks).Nodup ∧ ∀ p ∈ st.locks, ∃ q ∈ st.notes, q.1 = p.1

/-! Basic lemmas about the association-list store operations. -/

lemma lockLookup_lockUpsert_self (locks : LockStore) (k : Nat) (v : LockRow) :
    lockLookup (lockUpsert locks k v) k = some v := by
  induction locks with
  | nil => simp [lockUpsert, lockLookup]
  | cons p rest ih =>
      by_cases hk : p.1 = k
      · simp [lockUpsert, hk, lockLookup]
      · simp [lockUpsert, hk, lockLookup, ih]

lemma lockUpsert_of_lookup_self (locks : LockStore) (k : Nat) (v : LockRow)
    (h : lockLookup locks k = some v) : lockUpsert locks k v = locks := by
  induction locks with
  | nil => simp [lockLookup] at h
  | cons p rest ih =>
      obtain ⟨k', v'⟩ := p
      by_cases hk : k' = k
      · subst hk
        simp only [lockLookup, if_pos, Option.some.injEq] at h
        subst h
        simp [lockUpsert]
      · simp only [lockLookup, if_neg hk] at h
        simp [lockUpsert, hk, ih h]

lemma upsertRow_of_lockedBy_eq (e : Option LockRow) (s : String) (now ttl : Nat)
    (h : (upsertRow e s now ttl).lockedBy = s) :
    upsertRow e s now ttl = ⟨s, now, now + ttl⟩ := by
  cases e with
  | none => rfl
  | some row =>
      by_cases h1 : row.expiresAt ≤ now
      · simp [upsertRow, h1]
      · by_cases h2 : row.lockedBy = s
        · simp [upsertRow, h1, h2]
        · refine absurd ?_ h2
          simp only [upsertRow, if_neg h1, if_neg h2] at h
          exact h

lemma acquireOrRenewLock_eq (locks : LockStore) (noteId : Nat) (sessionId : String)
    (now ttl : Nat) :
    acquireOrRenewLock locks noteId sessionId now ttl =
      (lockUpsert locks noteId (upsertRow (lockLookup locks noteId) sessionId now ttl),
       if (upsertRow (lockLookup locks noteId) sessionId now ttl).lockedBy = sessionId then
         .granted ⟨noteId, (upsertRow (lockLookup locks noteId) sessionId now ttl).lockedBy,
                   (upsertRow (lockLookup locks noteId) sessionId now ttl).lockedAt,
                   (upsertRow (lockLookup locks noteId) sessionId now ttl).expiresAt⟩
       else .denied (upsertRow (lockLookup locks noteId) sessionId now ttl).lockedBy
                    (upsertRow (lockLookup locks noteId) sessionId now ttl).expiresAt) := by
  simp only [acquireOrRenewLock, lockLookup_lockUpsert_self]
  split <;> rfl

/-- Claim C1: if `h1` holds an unexpired lock on note `r`, then
`acquireOrRenewLock(r, h2)` for any other holder `h2` returns the denied
result carrying `h1` and the stored lock's expiry, and the lock store —
in particular the row for `r` — is byte-for-byte unchanged. -/
theorem acquire_denied_other_holder_unchanged
    (locks : LockStore) (r : Nat) (h1 h2 : String) (row : LockRow) (now ttl : Nat)
    (hrow : lockLookup locks r = some row) (hholder : row.lockedBy = h1)
    (hunexpired : now < row.expiresAt) (hne : h1 ≠ h2) :
    acquireOrRenewLock locks r h2 now ttl = (locks, .denied h1 row.expiresAt) := by
  have hup : upsertRow (lockLookup locks r) h2 now ttl = row := by
    rw [hrow]
    simp only [upsertRow]
    rw [if_neg (by omega), if_neg (by rw [hholder]; exact hne)]
  rw [acquireOrRenewLock_eq, hup, lockUpsert_of_lookup_self locks r row hrow,
    if_neg (by rw [hholder]; exact hne), hholder]

/-- Witness for C1 at a concrete store. -/
theorem acquire_denied_other_holder_unchanged_witness :
    acquireOrRenewLock [(1, ⟨"A", 0, 10⟩)] 1 "B" 5 120 =
      ([(1, ⟨"A", 0, 10⟩)], .denied "A" 10) :=
  acquire_denied_other_holder_unchanged [(1, ⟨"A", 0, 10⟩)] 1 "A" "B" ⟨"A", 0, 10⟩ 5 120
    rfl rfl (by decide) (by decide)

/-- Claim C3: once a lock's expiry instant has passed, `acquireOrRenewLock`
by any holder `h2` is granted with holder `h2`, acquired-at equal to the
store clock `now`, and `expiresAt = now + ttl`, strictly later than the
old expiry; the stored row for `r` becomes exactly that fresh row. -/
theorem acquire_takeover_after_expiry
    (locks : LockStore) (r : Nat) (h2 : String) (row : LockRow) (now ttl : Nat)
    (hrow : lockLookup locks r = some row) (hexp : row.expiresAt ≤ now) (httl : 0 < ttl) :
    (acquireOrRenewLock locks r h2 now ttl).2 = .granted ⟨r, h2, now, now + ttl⟩ ∧
      lockLookup (acquireOrRenewLock locks r h2 now ttl).1 r = some ⟨h2, now, now + ttl⟩ ∧
      row.expiresAt < now + ttl := by
  have hup : upsertRow (lockLookup locks r) h2 now ttl = ⟨h2, now, now + ttl⟩ := by
    rw [hrow]; simp [upsertRow, hexp]
  rw [acquireOrRenewLock_eq, hup]
  refine ⟨by simp, by simp [lockLookup_lockUpsert_self], by omega⟩

/-- Witness for C3 at a concrete store (previous holder expired, new holder takes over). -/
theorem acquire_takeover_after_expiry_witness :
    (acquireOrRenewLock [(1, ⟨"A", 0, 10⟩)] 1 "B" 10 120).2 =
        .granted ⟨1, "B", 10, 130⟩ ∧
      lockLookup (acquireOrRenewLock [(1, ⟨"A", 0, 10⟩)] 1 "B" 10 120).1 1 =
        some ⟨"B", 10, 130⟩ ∧
      (10 : Nat) < 130 :=
  acquire_takeover_after_expiry [(1, ⟨"A", 0, 10⟩)] 1 "B" ⟨"A", 0, 10⟩ 10 120
    rfl (by decide) (by decide)

/-- Claim C4: the outcome of `acquireOrRenewLock` is decided solely by the
post-write row: there is always a row stored for `r` after the call, and
the result is granted with that row's fields exactly when its holder equals
the caller, denied with that row's holder and expiry otherwise. -/
theorem acquire_decided_by_post_write_holder
    (locks : LockStore) (r : Nat) (h : String) (now ttl : Nat) :
    ∃ row, lockLookup (acquireOrRenewLock locks r h now ttl).1 r = some row ∧
      (acquireOrRenewLock locks r h now ttl).2 =
        if row.lockedBy = h then
          AcquireResult.granted ⟨r, row.lockedBy, row.lockedAt, row.expiresAt⟩
        else AcquireResult.denied row.lockedBy row.expiresAt := by
  refine ⟨upsertRow (lockLookup locks r) h now ttl, ?_, ?_⟩
  · rw [acquireOrRenewLock_eq]
    exact lockLookup_lockUpsert_self locks r _
  · rw [acquireOrRenewLock_eq]

/-- Claim C6: after a granted `acquireOrRenewLock` call, a second call by
the same holder before the first call's expiry is again granted with the
holder unchanged and a non-decreasing expiry. -/
theorem acquire_renewal_idempotent
    (locks : LockStore) (r : Nat) (h : String) (now₁ now₂ ttl : Nat) (info₁ : LockInfo)
    (hfirst : (acquireOrRenewLock locks r h now₁ ttl).2 = .granted info₁)
    (hmono : now₁ ≤ now₂) (hbefore : now₂ < info₁.expiresAt) :
    (acquireOrRenewLock (acquireOrRenewLock locks r h now₁ ttl).1 r h now₂ ttl).2 =
        .granted ⟨r, h, now₂, now₂ + ttl⟩ ∧
      info₁.expiresAt ≤ now₂ + ttl := by
  rw [acquireOrRenewLock_eq] at hfirst
  by_cases hown : (upsertRow (lockLookup locks r) h now₁ ttl).lockedBy = h
  case neg => rw [if_neg hown] at hfirst; exact absurd hfirst (by simp)
  rw [if_pos hown] at hfirst
  have hrow₁ : upsertRow (lockLookup locks r) h now₁ ttl = ⟨h, now₁, now₁ + ttl⟩ :=
    upsertRow_of_lockedBy_eq _ _ _ _ hown
  have hinfo : info₁ = ⟨r, h, now₁, now₁ + ttl⟩ := by
    rw [hrow₁] at hfirst
    simpa using hfirst.symm
  subst hinfo
  simp only at hbefore
  have hlook : lockLookup (acquireOrRenewLock locks r h now₁ ttl).1 r =
      some ⟨h, now₁, now₁ + ttl⟩ := by
    rw [acquireOrRenewLock_eq, hrow₁]
    simp [lockLookup_lockUpsert_self]
  have hup₂ : upsertRow (lockLookup (acquireOrRenewLock locks r h now₁ ttl).1 r) h now₂ ttl =
      ⟨h, now₂, now₂ + ttl⟩ := by
    rw [hlook]
    simp only [upsertRow]
    rw [if_neg (by simp; omega)]
    simp
  rw [acquireOrRenewLock_eq, hup₂]
  exact ⟨by simp, by simp; omega⟩

/-- Witness for C6 at a concrete store: acquire at time 0, renew at time 5. -/
theorem acquire_renewal_idempotent_witness :
    (acquireOrRenewLock (acquireOrRenewLock [] 1 "A" 0 120).1 1 "A" 5 120).2 =
        .granted ⟨1, "A", 5, 125⟩ ∧
      (120 : Nat) ≤ 125 :=
  acquire_renewal_idempotent [] 1 "A" 0 5 120 ⟨1, "A", 0, 120⟩ rfl
    (by decide) (by decide)

lemma lockLookup_eq_none_iff (locks : LockStore) (k : Nat) :
    lockLookup locks k = none ↔ k ∉ lockKeys locks := by
  induction locks with
  | nil => simp [lockLookup, lockKeys]
  | cons p rest ih =>
      obtain ⟨k', v'⟩ := p
      by_cases hk : k' = k
      · subst hk
        simp [lockLookup, lockKeys]
      · have hk' : ¬ k = k' := fun he => hk he.symm
        simp [lockLookup, hk, lockKeys, ih, hk']

lemma lockKeys_filter_sublist (locks : LockStore) (q : Nat × LockRow → Bool) :
    List.Sublist (lockKeys (locks.filter q)) (lockKeys locks) :=
  (List.filter_sublist locks).map Prod.fst

lemma lockLookup_filter_eq_none (q : Nat × LockRow → Bool) (locks : LockStore) (k : Nat)
    (h : lockLookup locks k = none) : lockLookup (locks.filter q) k = none := by
  rw [lockLookup_eq_none_iff] at h ⊢
  exact fun hm => h ((lockKeys_filter_sublist locks q).subset hm)

lemma lockLookup_filter (q : Nat × LockRow → Bool) (locks : LockStore)
    (hnd : (lockKeys locks).Nodup) (k : Nat) (v : LockRow)
    (hv : lockLookup locks k = some v) :
    lockLookup (locks.filter q) k = if q (k, v) then some v else none := by
  induction locks with
  | nil => simp [lockLookup] at hv
  | cons p rest ih =>
      obtain ⟨k', v'⟩ := p
      simp only [lockKeys, List.map_cons, List.nodup_cons] at hnd
      by_cases hk : k' = k
      · subst hk
        simp only [lockLookup, if_pos, Option.some.injEq] at hv
        subst hv
        have hrest : lockLookup rest k' = none :=
          (lockLookup_eq_none_iff rest k').mpr (by simpa [lockKeys] using hnd.1)
        by_cases hq : q (k', v')
        · simp [List.filter_cons, hq, lockLookup]
        · simp only [List.filter_cons, hq, Bool.false_eq_true, ite_false, if_neg]
          exact lockLookup_filter_eq_none q rest k' hrest
      · simp only [lockLookup, if_neg hk] at hv
        have := ih (by simpa [lockKeys] using hnd.2) hv
        by_cases hq : q (k', v')
        · simpa [List.filter_cons, hq, lockLookup, hk] using this
        · simpa [List.filter_cons, hq] using this

/-- Claim C5: `releaseLock` case analysis. No row: noop, store unchanged.
Expired row: the row is deleted, noop. Unexpired row held by another:
forbidden, store unchanged. Unexpired row held by the caller: released,
the row is gone, and any caller's subsequent acquire is granted. -/
theorem releaseLock_cases
    (locks : LockStore) (r : Nat) (h : String) (now : Nat)
    (hnd : (lockKeys locks).Nodup) :
    (lockLookup locks r = none → releaseLock locks r h now = (locks, .noop)) ∧
    (∀ row, lockLookup locks r = some row →
      (row.expiresAt ≤ now → releaseLock locks r h now = (lockDelete locks r, .noop)) ∧
      (now < row.expiresAt → ¬ row.lockedBy = h →
        releaseLock locks r h now = (locks, .forbidden)) ∧
      (now < row.expiresAt → row.lockedBy = h →
        (releaseLock locks r h now).2 = .released ∧
        lockLookup (releaseLock locks r h now).1 r = none ∧
        ∀ h2 now2 ttl, (acquireOrRenewLock (releaseLock locks r h now).1 r h2 now2 ttl).2 =
          .granted ⟨r, h2, now2, now2 + ttl⟩)) := by
  refine ⟨fun hn => by simp [releaseLock, hn], fun row hrow => ⟨?_, ?_, ?_⟩⟩
  · intro hexp
    simp [releaseLock, hrow, hexp]
  · intro hunexp hne
    simp [releaseLock, hrow, Nat.not_le.mpr hunexp, hne]
  · intro hunexp heq
    have hrel : releaseLock locks r h now = (lockDeleteBy locks r h, .released) := by
      simp [releaseLock, hrow, Nat.not_le.mpr hunexp, heq]
    have hnone : lockLookup (lockDeleteBy locks r h) r = none := by
      rw [lockDeleteBy, lockLookup_filter _ locks hnd r row hrow]
      simp [heq]
    refine ⟨by rw [hrel], by rw [hrel]; exact hnone, fun h2 now2 ttl => ?_⟩
    rw [hrel]
    simp only
    rw [acquireOrRenewLock_eq, hnone]
    simp [upsertRow]

/-- Witness for C5: the holder releases its own unexpired lock. -/
theorem releaseLock_cases_witness :
    (releaseLock [(1, ⟨"A", 0, 10⟩)] 1 "A" 5).2 = ReleaseResult.released := by
  have h := releaseLock_cases [(1, ⟨"A", 0, 10⟩)] 1 "A" 5 (by decide)
  exact ((h.2 ⟨"A", 0, 10⟩ rfl).2.2 (by decide) rfl).1

/-! Lemmas about the update gate. -/

lemma lockLookup_some_mem (locks : LockStore) (k : Nat) (v : LockRow)
    (h : lockLookup locks k = some v) : (k, v) ∈ locks := by
  induction locks with
  | nil => simp [lockLookup] at h
  | cons p rest ih =>
      obtain ⟨k', v'⟩ := p
      by_cases hk : k' = k
      · subst hk
        simp only [lockLookup, if_pos, Option.some.injEq] at h
        subst h
        exact List.mem_cons_self _ _
      · simp only [lockLookup, if_neg hk] at h
        exact List.mem_cons_of_mem _ (ih h)

lemma noteLookup_some_mem (notes : NoteStore) (k : Nat) (v : Note)
    (h : noteLookup notes k = some v) : (k, v) ∈ notes := by
  induction notes with
  | nil => simp [noteLookup] at h
  | cons p rest ih =>
      obtain ⟨k', v'⟩ := p
      by_cases hk : k' = k
      · subst hk
        simp only [noteLookup, if_pos, Option.some.injEq] at h
        subst h
        exact List.mem_cons_self _ _
      · simp only [noteLookup, if_neg hk] at h
        exact List.mem_cons_of_mem _ (ih h)

lemma ensureValidLock_valid_iff (locks : LockStore) (r : Nat) (h : String) (now : Nat) :
    (ensureValidLock locks r h now).2 = .valid ↔
      ∃ row, lockLookup locks r = some row ∧ now < row.expiresAt ∧ row.lockedBy = h := by
  cases hl : lockLookup locks r with
  | none => simp [ensureValidLock, hl]
  | some row =>
      by_cases hexp : row.expiresAt ≤ now
      · have hres : ensureValidLock locks r h now = (lockDelete locks r, .invalid none none) := by
          simp [ensureValidLock, hl, hexp]
        rw [hres]
        constructor
        · intro habs; exact absurd habs (by simp)
        · rintro ⟨row', hrow', hlt, -⟩
          rw [Option.some.injEq] at hrow'
          subst hrow'
          omega
      · by_cases hby : row.lockedBy = h
        · have hres : ensureValidLock locks r h now = (locks, .valid) := by
            simp [ensureValidLock, hl, hexp, hby]
          rw [hres]
          exact ⟨fun _ => ⟨row, rfl, by omega, hby⟩, fun _ => rfl⟩
        · have hres : ensureValidLock locks r h now =
              (locks, .invalid (some row.lockedBy) (some row.expiresAt)) := by
            simp [ensureValidLock, hl, hexp, hby]
          rw [hres]
          constructor
          · intro habs; exact absurd habs (by simp)
          · rintro ⟨row', hrow', -, hby'⟩
            rw [Option.some.injEq] at hrow'
            subst hrow'
            exact absurd hby' hby

lemma ensureValidLock_valid_store (locks : LockStore) (r : Nat) (h : String) (now : Nat)
    (hv : (ensureValidLock locks r h now).2 = .valid) :
    (ensureValidLock locks r h now).1 = locks := by
  cases hl : lockLookup locks r with
  | none => simp [ensureValidLock, hl]
  | some row =>
      by_cases hexp : row.expiresAt ≤ now
      · rw [ensureValidLock, hl] at hv
        simp only [if_pos hexp] at hv
        exact absurd hv (by simp)
      · by_cases hby : row.lockedBy = h
        · simp [ensureValidLock, hl, hexp, hby]
        · rw [ensureValidLock, hl] at hv
          simp only [if_neg hexp, if_pos (by simp [hby] : ¬ row.lockedBy = h)] at hv
          exact absurd hv (by simp)

lemma patchNote_fst (noteId : Nat) (title? content? : Option String) (now : Nat)
    (p : Nat × Note) : (patchNote noteId title? content? now p).1 = p.1 := by
  by_cases hk : p.1 = noteId <;> simp [patchNote, hk]

lemma noteLookup_map_patch_ne (notes : NoteStore) (r : Nat) (t? c? : Option String)
    (now : Nat) (id : Nat) (hne : id ≠ r) :
    noteLookup (notes.map (patchNote r t? c? now)) id = noteLookup notes id := by
  induction notes with
  | nil => simp [noteLookup]
  | cons p rest ih =>
      obtain ⟨k, v⟩ := p
      rw [List.map_cons]
      by_cases hk : k = id
      · subst hk
        have hkr : ¬ k = r := fun he => hne he
        have hp : patchNote r t? c? now (k, v) = (k, v) := by
          simp [patchNote, hkr]
        rw [hp]
        simp [noteLookup]
      · rcases hp : patchNote r t? c? now (k, v) with ⟨k', v'⟩
        have hfst : k' = k := by
          have hh := patchNote_fst r t? c? now (k, v)
          rw [hp] at hh
          exact hh
        subst hfst
        simp only [noteLookup, if_neg hk]
        exact ih

lemma noteLookup_map_patch_self (notes : NoteStore) (r : Nat) (t? c? : Option String)
    (now : Nat) (old : Note) (hold : noteLookup notes r = some old) :
    noteLookup (notes.map (patchNote r t? c? now)) r =
      some ⟨t?.getD old.title, c?.getD old.content, now⟩ := by
  induction notes with
  | nil => simp [noteLookup] at hold
  | cons p rest ih =>
      obtain ⟨k, v⟩ := p
      rw [List.map_cons]
      by_cases hk : k = r
      · subst hk
        simp only [noteLookup, if_pos, Option.some.injEq] at hold
        subst hold
        have hp : patchNote k t? c? now (k, v) =
            (k, ⟨t?.getD v.title, c?.getD v.content, now⟩) := by
          simp [patchNote]
        rw [hp]
        simp [noteLookup]
      · simp only [noteLookup, if_neg hk] at hold
        rcases hp : patchNote r t? c? now (k, v) with ⟨k', v'⟩
        have hfst : k' = k := by
          have hh := patchNote_fst r t? c? now (k, v)
          rw [hp] at hh
          exact hh
        subst hfst
        simp only [noteLookup, if_neg hk]
        exact ih hold

lemma noteLookup_isSome_of_any (notes : NoteStore) (r : Nat)
    (h : notes.any (fun p => p.1 == r) = true) :
    ∃ old, noteLookup notes r = some old := by
  induction notes with
  | nil => simp at h
  | cons p rest ih =>
      obtain ⟨k, v⟩ := p
      by_cases hk : k = r
      · subst hk
        exact ⟨v, by simp [noteLookup]⟩
      · have hb : (k == r) = false := beq_eq_false_iff_ne.mpr hk
        rw [List.any_cons] at h
        simp only [hb, Bool.false_or] at h
        obtain ⟨old, hold⟩ := ih h
        exact ⟨old, by simpa [noteLookup, hk] using hold⟩

lemma any_of_noteLookup_some (notes : NoteStore) (r : Nat) (v : Note)
    (h : noteLookup notes r = some v) :
    notes.any (fun p => p.1 == r) = true := by
  have hm := noteLookup_some_mem notes r v h
  exact List.any_eq_true.mpr ⟨(r, v), hm, by simp⟩

lemma putNoteHandler_eq (st : AppState) (r : Nat) (h : String)
    (t? c? : Option String) (now : Nat) :
    putNoteHandler st r h t? c? now =
      if (t?.isNone && c?.isNone) = true then (st, .badRequest)
      else
        match (ensureValidLock st.locks r h now).2 with
        | .invalid lb ea => (st, .lockInvalid lb ea)
        | .valid =>
            if st.notes.any (fun p => p.1 == r) = true then
              (⟨st.notes.map (patchNote r t? c? now), (ensureValidLock st.locks r h now).1⟩,
                .updated)
            else (st, .notFound) := by
  by_cases hempty : (t?.isNone && c?.isNone) = true
  · simp [putNoteHandler, hempty]
  · rw [putNoteHandler, if_neg hempty, if_neg hempty]
    rcases hv : ensureValidLock st.locks r h now with ⟨l₁, res⟩
    cases res with
    | invalid lb ea => rfl
    | valid =>
        rw [notesUpdate]
        by_cases hany : st.notes.any (fun p => p.1 == r) = true
        · simp [hany]
        · simp [hany]

/-- Claim C2: with a non-empty patch, the gated update returns Updated
exactly when `ensureValidLock` reports valid at the same instant (given
that every lock row names an existing note), and on every non-Updated
outcome the whole state — notes and locks — is exactly the pre-call
state (the transaction rolled back). -/
theorem update_gated_by_validate_and_rolls_back
    (st : AppState) (r : Nat) (h : String) (title? content? : Option String) (now : Nat)
    (hpatch : title?.isSome = true ∨ content?.isSome = true)
    (href : ∀ p ∈ st.locks, ∃ q ∈ st.notes, q.1 = p.1) :
    ((putNoteHandler st r h title? content? now).2 = .updated ↔
      (ensureValidLock st.locks r h now).2 = .valid) ∧
    ((putNoteHandler st r h title? content? now).2 ≠ .updated →
      (putNoteHandler st r h title? content? now).1 = st) := by
  have hempty : ¬ (title?.isNone && content?.isNone) = true := by
    rcases hpatch with hp | hp
    · rcases Option.isSome_iff_exists.mp hp with ⟨x, hx⟩
      subst hx; simp
    · rcases Option.isSome_iff_exists.mp hp with ⟨x, hx⟩
      subst hx; simp
  rw [putNoteHandler_eq, if_neg hempty]
  cases hres : (ensureValidLock st.locks r h now).2 with
  | invalid lb ea => exact ⟨by simp, fun _ => rfl⟩
  | valid =>
      obtain ⟨row, hrow, -, -⟩ := (ensureValidLock_valid_iff st.locks r h now).mp hres
      obtain ⟨q, hq, hqr⟩ := href (r, row) (lockLookup_some_mem st.locks r row hrow)
      have hany : st.notes.any (fun p => p.1 == r) = true :=
        List.any_eq_true.mpr ⟨q, hq, by simp [hqr]⟩
      rw [if_pos hany]
      exact ⟨by simp, fun habs => absurd rfl habs⟩

/-- Witness for C2: a valid holder updates its note. -/
theorem update_gated_witness :
    ((putNoteHandler ⟨[(1, ⟨"t", "c", 0⟩)], [(1, ⟨"A", 0, 10⟩)]⟩ 1 "A"
        (some "t2") none 5).2 = .updated ↔
      (ensureValidLock [(1, ⟨"A", 0, 10⟩)] 1 "A" 5).2 = .valid) ∧
    ((putNoteHandler ⟨[(1, ⟨"t", "c", 0⟩)], [(1, ⟨"A", 0, 10⟩)]⟩ 1 "A"
        (some "t2") none 5).2 ≠ .updated →
      (putNoteHandler ⟨[(1, ⟨"t", "c", 0⟩)], [(1, ⟨"A", 0, 10⟩)]⟩ 1 "A"
        (some "t2") none 5).1 = ⟨[(1, ⟨"t", "c", 0⟩)], [(1, ⟨"A", 0, 10⟩)]⟩) :=
  update_gated_by_validate_and_rolls_back
    ⟨[(1, ⟨"t", "c", 0⟩)], [(1, ⟨"A", 0, 10⟩)]⟩ 1 "A" (some "t2") none 5
    (Or.inl rfl) (by decide)

/-- Claim C9: a successful gated update patches exactly the note named by
the call — fields present in the patch are overwritten, absent fields keep
their prior value, the last-modified stamp becomes `now` — while every
other note row and the whole lock table are unchanged. -/
theorem update_patch_frame
    (st : AppState) (r : Nat) (h : String) (title? content? : Option String) (now : Nat)
    (hupd : (putNoteHandler st r h title? content? now).2 = .updated) :
    ∃ old, noteLookup st.notes r = some old ∧
      noteLookup (putNoteHandler st r h title? content? now).1.notes r =
        some ⟨title?.getD old.title, content?.getD old.content, now⟩ ∧
      (∀ id, id ≠ r →
        noteLookup (putNoteHandler st r h title? content? now).1.notes id =
          noteLookup st.notes id) ∧
      (putNoteHandler st r h title? content? now).1.locks = st.locks := by
  rw [putNoteHandler_eq] at hupd ⊢
  by_cases hempty : (title?.isNone && content?.isNone) = true
  · rw [if_pos hempty] at hupd
    exact absurd hupd (by simp)
  · rw [if_neg hempty] at hupd ⊢
    cases hres : (ensureValidLock st.locks r h now).2 with
    | invalid lb ea =>
        rw [hres] at hupd
        exact absurd hupd (by simp)
    | valid =>
        rw [hres] at hupd
        by_cases hany : st.notes.any (fun p => p.1 == r) = true
        · rw [if_pos hany] at hupd ⊢
          obtain ⟨old, hold⟩ := noteLookup_isSome_of_any st.notes r hany
          have hl₁ : (ensureValidLock st.locks r h now).1 = st.locks :=
            ensureValidLock_valid_store st.locks r h now hres
          refine ⟨old, hold, ?_, ?_, ?_⟩
          · simpa using noteLookup_map_patch_self st.notes r title? content? now old hold
          · intro id hne
            simpa using noteLookup_map_patch_ne st.notes r title? content? now id hne
          · simpa using hl₁
        · rw [if_neg hany] at hupd
          exact absurd hupd (by simp)

/-- Witness for C9: patch only the title; content survives, stamp refreshed. -/
theorem update_patch_frame_witness :
    ∃ old, noteLookup ([(1, ⟨"t", "c", 0⟩)] : NoteStore) 1 = some old ∧
      noteLookup (putNoteHandler ⟨[(1, ⟨"t", "c", 0⟩)], [(1, ⟨"A", 0, 10⟩)]⟩ 1 "A"
          (some "t2") none 5).1.notes 1 =
        some ⟨(some "t2").getD old.title, Option.none.getD old.content, 5⟩ ∧
      (∀ id, id ≠ 1 →
        noteLookup (putNoteHandler ⟨[(1, ⟨"t", "c", 0⟩)], [(1, ⟨"A", 0, 10⟩)]⟩ 1 "A"
            (some "t2") none 5).1.notes id =
          noteLookup ([(1, ⟨"t", "c", 0⟩)] : NoteStore) id) ∧
      (putNoteHandler ⟨[(1, ⟨"t", "c", 0⟩)], [(1, ⟨"A", 0, 10⟩)]⟩ 1 "A"
          (some "t2") none 5).1.locks = [(1, ⟨"A", 0, 10⟩)] :=
  update_patch_frame ⟨[(1, ⟨"t", "c", 0⟩)], [(1, ⟨"A", 0, 10⟩)]⟩ 1 "A"
    (some "t2") none 5 (by decide)

/-- Claim C10: acquiring a lock for a note id with no note row returns the
not-found outcome and leaves the whole state — in particular the lock
table — untouched: no upsert is performed. -/
theorem acquire_unknown_note_not_found
    (st : AppState) (r : Nat) (h : String) (now ttl : Nat)
    (hmiss : noteLookup st.notes r = none) :
    postLockHandler st r h now ttl = (st, .notFound) := by
  simp [postLockHandler, hmiss]

/-- Witness for C10 at a concrete state. -/
theorem acquire_unknown_note_not_found_witness :
    postLockHandler ⟨[(1, ⟨"t", "c", 0⟩)], []⟩ 2 "A" 0 120 =
      (⟨[(1, ⟨"t", "c", 0⟩)], []⟩, .notFound) :=
  acquire_unknown_note_not_found ⟨[(1, ⟨"t", "c", 0⟩)], []⟩ 2 "A" 0 120 (by decide)

/-- Claim C8: the listing first deletes exactly the expired lock rows, then
projects every note through the lock join: a note whose lock row exists and
is unexpired is reported locked with that row's holder and expiry, and a
note with no lock row or an expired one is reported unlocked with null
holder and expiry. -/
theorem listing_cleanup_and_projection
    (st : AppState) (now : Nat) (hnd : (lockKeys st.locks).Nodup) :
    (getNotesHandler st now).1.notes = st.notes ∧
    (getNotesHandler st now).1.locks =
      st.locks.filter (fun p => decide (now < p.2.expiresAt)) ∧
    (getNotesHandler st now).2 = st.notes.map (noteView (getNotesHandler st now).1.locks now) ∧
    (∀ id note row, lockLookup st.locks id = some row → now < row.expiresAt →
      noteView (getNotesHandler st now).1.locks now (id, note) =
        ⟨id, note.title, note.content, note.updatedAt, true,
          some row.lockedBy, some row.expiresAt⟩) ∧
    (∀ id note, (lockLookup st.locks id = none ∨
        ∃ row, lockLookup st.locks id = some row ∧ row.expiresAt ≤ now) →
      noteView (getNotesHandler st now).1.locks now (id, note) =
        ⟨id, note.title, note.content, note.updatedAt, false, none, none⟩) := by
  refine ⟨rfl, rfl, rfl, ?_, ?_⟩
  · intro id note row hrow hlive
    have hf : lockLookup (getNotesHandler st now).1.locks id = some row := by
      show lockLookup (st.locks.filter _) id = some row
      rw [lockLookup_filter _ st.locks hnd id row hrow, if_pos (by simpa using hlive)]
    simp [noteView, hf, hlive]
  · intro id note hcase
    rcases hcase with hnone | ⟨row, hrow, hexp⟩
    · have hf : lockLookup (getNotesHandler st now).1.locks id = none :=
        lockLookup_filter_eq_none _ st.locks id hnone
      simp [noteView, hf]
    · have hf : lockLookup (getNotesHandler st now).1.locks id = none := by
        show lockLookup (st.locks.filter _) id = none
        rw [lockLookup_filter _ st.locks hnd id row hrow, if_neg (by simp; omega)]
      simp [noteView, hf]

/-- Witness for C8: one live lock, one expired lock. -/
theorem listing_cleanup_and_projection_witness :
    (getNotesHandler ⟨[(1, ⟨"t", "c", 0⟩), (2, ⟨"u", "d", 0⟩)],
        [(1, ⟨"A", 0, 10⟩), (2, ⟨"B", 0, 3⟩)]⟩ 5).1.locks =
      ([(1, ⟨"A", 0, 10⟩), (2, ⟨"B", 0, 3⟩)] : LockStore).filter
        (fun p => decide (5 < p.2.expiresAt)) :=
  (listing_cleanup_and_projection ⟨[(1, ⟨"t", "c", 0⟩), (2, ⟨"u", "d", 0⟩)],
    [(1, ⟨"A", 0, 10⟩), (2, ⟨"B", 0, 3⟩)]⟩ 5 (by decide)).2.1

/-! Lemmas for the reachable-state invariant. -/

lemma lockKeys_lockUpsert_some (locks : LockStore) (k : Nat) (v w : LockRow)
    (h : lockLookup locks k = some w) :
    lockKeys (lockUpsert locks k v) = lockKeys locks := by
  induction locks with
  | nil => simp [lockLookup] at h
  | cons p rest ih =>
      obtain ⟨k', v'⟩ := p
      by_cases hk : k' = k
      · subst hk
        simp [lockUpsert, lockKeys]
      · simp only [lockLookup, if_neg hk] at h
        have hstep : lockUpsert ((k', v') :: rest) k v = (k', v') :: lockUpsert rest k v := by
          simp [lockUpsert, hk]
        rw [hstep]
        simp only [lockKeys, List.map_cons]
        have hrec := ih h
        simp only [lockKeys] at hrec
        rw [hrec]

lemma lockKeys_lockUpsert_none (locks : LockStore) (k : Nat) (v : LockRow)
    (h : lockLookup locks k = none) :
    lockKeys (lockUpsert locks k v) = lockKeys locks ++ [k] := by
  induction locks with
  | nil => simp [lockUpsert, lockKeys]
  | cons p rest ih =>
      obtain ⟨k', v'⟩ := p
      by_cases hk : k' = k
      · subst hk
        simp [lockLookup] at h
      · simp only [lockLookup, if_neg hk] at h
        have hstep : lockUpsert ((k', v') :: rest) k v = (k', v') :: lockUpsert rest k v := by
          simp [lockUpsert, hk]
        rw [hstep]
        simp only [lockKeys, List.map_cons, List.cons_append]
        have hrec := ih h
        simp only [lockKeys] at hrec
        rw [hrec]

lemma lockKeys_lockUpsert_nodup (locks : LockStore) (k : Nat) (v : LockRow)
    (hnd : (lockKeys locks).Nodup) : (lockKeys (lockUpsert locks k v)).Nodup := by
  cases hl : lockLookup locks k with
  | some w => rw [lockKeys_lockUpsert_some locks k v w hl]; exact hnd
  | none =>
      rw [lockKeys_lockUpsert_none locks k v hl]
      have hk : k ∉ lockKeys locks := (lockLookup_eq_none_iff locks k).mp hl
      simp [List.nodup_append, hnd, hk]

lemma mem_lockUpsert (locks : LockStore) (k : Nat) (v : LockRow) (p : Nat × LockRow)
    (h : p ∈ lockUpsert locks k v) : p = (k, v) ∨ p ∈ locks := by
  induction locks with
  | nil => simpa [lockUpsert] using h
  | cons q rest ih =>
      obtain ⟨k', v'⟩ := q
      by_cases hk : k' = k
      · subst hk
        simp only [lockUpsert, if_pos] at h
        rcases List.mem_cons.mp h with h | h
        · exact Or.inl h
        · exact Or.inr (List.mem_cons_of_mem _ h)
      · simp only [lockUpsert, if_neg hk] at h
        rcases List.mem_cons.mp h with h | h
        · exact Or.inr (by simp [h])
        · rcases ih h with h | h
          · exact Or.inl h
          · exact Or.inr (List.mem_cons_of_mem _ h)

lemma releaseLock_state (locks : LockStore) (r : Nat) (h : String) (now : Nat) :
    (releaseLock locks r h now).1 = locks ∨
    (releaseLock locks r h now).1 = lockDelete locks r ∨
    (releaseLock locks r h now).1 = lockDeleteBy locks r h := by
  cases hl : lockLookup locks r with
  | none => simp [releaseLock, hl]
  | some row =>
      by_cases hexp : row.expiresAt ≤ now
      · simp [releaseLock, hl, hexp]
      · by_cases hby : row.lockedBy = h
        · simp [releaseLock, hl, hexp, hby]
        · simp [releaseLock, hl, hexp, hby]

lemma ensureValidLock_state (locks : LockStore) (r : Nat) (h : String) (now : Nat) :
    (ensureValidLock locks r h now).1 = locks ∨
    (ensureValidLock locks r h now).1 = lockDelete locks r := by
  cases hl : lockLookup locks r with
  | none => simp [ensureValidLock, hl]
  | some row =>
      by_cases hexp : row.expiresAt ≤ now
      · simp [ensureValidLock, hl, hexp]
      · by_cases hby : row.lockedBy = h
        · simp [ensureValidLock, hl, hexp, hby]
        · simp [ensureValidLock, hl, hexp, hby]

lemma storeInv_locks_filter (notes : NoteStore) (locks : LockStore)
    (q : Nat × LockRow → Bool) (hinv : StoreInv ⟨notes, locks⟩) :
    StoreInv ⟨notes, locks.filter q⟩ := by
  obtain ⟨hnd, href⟩ := hinv
  exact ⟨List.Nodup.sublist (lockKeys_filter_sublist locks q) hnd,
    fun p hp => href p (List.mem_of_mem_filter hp)⟩

lemma storeInv_applyOp (st : AppState) (op : Op) (hinv : StoreInv st) :
    StoreInv (applyOp st op) := by
  obtain ⟨hnd, href⟩ := hinv
  cases op with
  | acquire n s now ttl =>
      show StoreInv (postLockHandler st n s now ttl).1
      cases hnote : noteLookup st.notes n with
      | none =>
          rw [postLockHandler, hnote]
          exact ⟨hnd, href⟩
      | some note =>
          have hstate : (postLockHandler st n s now ttl).1 =
              { st with locks := (acquireOrRenewLock st.locks n s now ttl).1 } := by
            rw [postLockHandler, hnote]
            rcases acquireOrRenewLock st.locks n s now ttl with ⟨l', res⟩
            cases res <;> rfl
          rw [hstate, acquireOrRenewLock_eq]
          refine ⟨lockKeys_lockUpsert_nodup _ _ _ hnd, fun p hp => ?_⟩
          rcases mem_lockUpsert _ _ _ p hp with hcase | hcase
          · subst hcase
            exact ⟨(n, note), noteLookup_some_mem st.notes n note hnote, rfl⟩
          · exact href p hcase
  | release n s now =>
      show StoreInv (deleteLockHandler st n s now).1
      have hstate : (deleteLockHandler st n s now).1 =
          { st with locks := (releaseLock st.locks n s now).1 } := by
        rw [deleteLockHandler]
        rcases releaseLock st.locks n s now with ⟨l', res⟩
        cases res <;> rfl
      rw [hstate]
      rcases releaseLock_state st.locks n s now with hcase | hcase | hcase <;> rw [hcase]
      · exact ⟨hnd, href⟩
      · exact storeInv_locks_filter st.notes st.locks _ ⟨hnd, href⟩
      · exact storeInv_locks_filter st.notes st.locks _ ⟨hnd, href⟩
  | update n s t c now =>
      show StoreInv (putNoteHandler st n s t c now).1
      rw [putNoteHandler_eq]
      by_cases hempty : (t.isNone && c.isNone) = true
      · rw [if_pos hempty]
        exact ⟨hnd, href⟩
      · rw [if_neg hempty]
        cases hres : (ensureValidLock st.locks n s now).2 with
        | invalid lb ea => exact ⟨hnd, href⟩
        | valid =>
            by_cases hany : st.notes.any (fun p => p.1 == n) = true
            · rw [if_pos hany]
              have hl₁ : (ensureValidLock st.locks n s now).1 = st.locks :=
                ensureValidLock_valid_store st.locks n s now hres
              refine ⟨?_, fun p hp => ?_⟩
              · simpa [hl₁] using hnd
              · rw [hl₁] at hp
                obtain ⟨q, hq, hqr⟩ := href p hp
                exact ⟨patchNote n t c now q, List.mem_map_of_mem _ hq,
                  by rw [patchNote_fst]; exact hqr⟩
            · rw [if_neg hany]
              exact ⟨hnd, href⟩
  | validate n s now =>
      show StoreInv { st with locks := (ensureValidLock st.locks n s now).1 }
      rcases ensureValidLock_state st.locks n s now with hcase | hcase <;> rw [hcase]
      · exact ⟨hnd, href⟩
      · exact storeInv_locks_filter st.notes st.locks _ ⟨hnd, href⟩
  | listing now =>
      show StoreInv (getNotesHandler st now).1
      exact storeInv_locks_filter st.notes st.locks _ ⟨hnd, href⟩

/-- Claim C7: in every state reachable by any sequence of acquire, release,
update, validate and listing operations from a state satisfying the store
invariant, the lock table has at most one row per note id and every lock
row names an existing note. -/
theorem store_invariant_preserved (st : AppState) (ops : List Op) (hinv : StoreInv st) :
    StoreInv (runOps st ops) := by
  induction ops generalizing st with
  | nil => exact hinv
  | cons op rest ih => exact ih (applyOp st op) (storeInv_applyOp st op hinv)

/-- Witness for C7: a concrete run through all five operation kinds. -/
theorem store_invariant_preserved_witness :
    StoreInv (runOps ⟨[(1, ⟨"a", "b", 0⟩)], []⟩
      [.acquire 1 "A" 0 120, .update 1 "A" (some "t") none 1, .validate 1 "A" 2,
       .release 1 "A" 3, .listing 4]) :=
  store_invariant_preserved ⟨[(1, ⟨"a", "b", 0⟩)], []⟩
    [.acquire 1 "A" 0 120, .update 1 "A" (some "t") none 1, .validate 1 "A" 2,
     .release 1 "A" 3, .listing 4]
    ⟨by decide, by simp⟩

end NotesLock
